import Mathlib

/-!
Verification of `py_deque_benchmark`: a shallow embedding in Lean 4 of the
repository's two list structures and benchmark adapter, with proofs of the
specification claims.

Source files embedded:
- `src/src/collections/chunk_list/chunk_list.py` (`ChunkList`)
- `src/src/collections/trim_list/trim_list.py` (`TrimList`)
- `src/demos/demo_trimmable_list_benchmark.py` (`ChunkListAdapter`)

Python integers are modelled as `Int`.  Python `x & (2^k - 1)` on arbitrary
(possibly negative) integers equals `x % 2^k` with a nonnegative result, and
`x >> k` is floor division by `2^k`; both coincide with Lean's `Int.emod` /
`Int.ediv` for a positive modulus, which are used below.  Python `None` used
as the absence sentinel is modelled by `Option.none`; a read that raises a
Python exception is modelled by `Except.error` carrying the exception name.
-/

namespace PyDeque

/-! ## Python list / range primitives -/

/-- Python sequence indexing `l[i]` with negative-index wraparound:
`i < 0` is first offset by `len(l)`; an index still out of bounds raises
`IndexError`. This models indexing into `collections.deque` (and `list`). -/
def pyIndex {α : Type} (l : List α) (i : Int) : Except String α :=
  let j : Int := if i < 0 then i + l.length else i
  if j < 0 then Except.error "IndexError"
  else
    match l.get? j.toNat with
    | some v => Except.ok v
    | Option.none => Except.error "IndexError"

/-- The elements of Python `range(start, stop, step)` in iteration order
(`step ≠ 0` for any constructible Python range; for `step = 0` Python raises
`ValueError` at construction, which callers below model separately). -/
def pyRange (start stop step : Int) : List Int :=
  if step = 0 then []
  else
    let len : Int :=
      if 0 < step then (stop - start + step - 1) / step
      else (start - stop - step - 1) / (-step)
    (List.range len.toNat).map (fun i => start + step * i)

/-! ## ChunkList (`chunk_list.py`)

`_data` is a Python list of 128 slots, each either `None` or a level-2 chunk;
a level-2 chunk has 128 slots each either `None` or a level-3 chunk; a
level-3 chunk has 128 slots holding `Optional[_T]` items.  Chunks are
modelled as total functions from the (integer) slot index; a slot the code
never touches holds `None`, matching `_pool_getnew() = [None] * 128`.

The pool (`_pool`) starts empty and `_pool_reclaim` is never invoked on any
code path of the repository, so `_pool_get()` always returns a fresh
all-`None` buffer from `_pool_getnew`; chunk acquisition is therefore
modelled as producing an all-`none` chunk. -/

/-- A level-3 chunk: 128 item slots, all initially `None`. -/
def emptyChunk3 (α : Type) : Int → Option α := fun _ => Option.none

/-- A level-2 chunk: 128 slots of optional level-3 chunks, all initially `None`. -/
def emptyChunk2 (α : Type) : Int → Option (Int → Option α) := fun _ => Option.none

/-- State of `ChunkList`: the 3-level `_data` tree plus `_start`/`_stop`.
(The pool is omitted: it is provably always empty, see module note.) -/
structure ChunkList (α : Type) where
  data : Int → Option (Int → Option (Int → Option α))
  start : Int
  stop : Int

namespace ChunkList

/-- Python `ChunkList.__init__`: fresh top-level table of `None`s, window `[0, 0)`. -/
def init (α : Type) : ChunkList α :=
  { data := fun _ => Option.none, start := 0, stop := 0 }

/-- Python `ChunkList._decompose(idx)`: three rounds of 7-bit mask-and-shift,
returning `(remainder, k1, k2, k3)`. -/
def decompose (idx : Int) : Int × Int × Int × Int :=
  let idx3 := idx % 128
  let r1 := idx / 128
  let idx2 := r1 % 128
  let r2 := r1 / 128
  let idx1 := r2 % 128
  let r3 := r2 / 128
  (r3, idx1, idx2, idx3)

/-- Python `ChunkList._compose(key)`: Horner recomposition with chunk size 128. -/
def compose (key : Int × Int × Int × Int) : Int :=
  ((key.1 * 128 + key.2.1) * 128 + key.2.2.1) * 128 + key.2.2.2

/-- Python `ChunkList.put(idx, item)`: decompose `idx` (the remainder is discarded),
lazily materialise the level-2 then level-3 chunk on the path, write `item`
at the leaf slot. -/
def put {α : Type} (s : ChunkList α) (idx : Int) (item : Option α) : ChunkList α :=
  let k1 := (decompose idx).2.1
  let k2 := (decompose idx).2.2.1
  let k3 := (decompose idx).2.2.2
  let c1 := (s.data k1).getD (emptyChunk2 α)
  let c2 := (c1 k2).getD (emptyChunk3 α)
  let c2n : Int → Option α := fun j => if j = k3 then item else c2 j
  let c1n : Int → Option (Int → Option α) := fun j => if j = k2 then some c2n else c1 j
  { s with data := fun j => if j = k1 then some c1n else s.data j }

/-- Python `ChunkList.append(item)`: take `idx = stop`, bump `stop`, then
`put(idx, item)`; returns the assigned index. -/
def append {α : Type} (s : ChunkList α) (item : α) : Int × ChunkList α :=
  let idx := s.stop
  let s1 := { s with stop := s.stop + 1 }
  (idx, s1.put idx (some item))

/-- The chunk-walk part of `ChunkList.get` (everything after the window
check): `None` if the level-2 or level-3 chunk on the path is absent,
otherwise the leaf slot. -/
def getRaw {α : Type} (s : ChunkList α) (idx : Int) : Option α :=
  let k1 := (decompose idx).2.1
  let k2 := (decompose idx).2.2.1
  let k3 := (decompose idx).2.2.2
  match s.data k1 with
  | Option.none => Option.none
  | some c1 =>
    match c1 k2 with
    | Option.none => Option.none
    | some c2 => c2 k3

/-- Python `ChunkList.get(idx)`: `None` when `idx` is outside `[_start, _stop)`,
otherwise the chunk walk of `getRaw`. -/
def get {α : Type} (s : ChunkList α) (idx : Int) : Option α :=
  if s.start ≤ idx ∧ idx < s.stop then s.getRaw idx else Option.none

/-- Python `ChunkList.keyrange()`: the pair `(start, stop)` of `range(start, stop)`. -/
def keyrange {α : Type} (s : ChunkList α) : Int × Int :=
  (s.start, s.stop)

/-- The possible Python values passed as `_slice` to `ChunkList.enumerate`:
`None`, a `slice` (fields possibly `None`), a `range` (integer fields,
nonzero step), an arbitrary iterable of integers, or any other object. -/
inductive Selector where
  | noneSel : Selector
  | sliceSel (start stop step : Option Int) : Selector
  | rangeSel (start stop step : Int) : Selector
  | iterSel (idxs : List Int) : Selector
  | otherSel : Selector

/-- The contiguous branch of `ChunkList.enumerate`: resolve a `None` bound to
the window edge, shift a negative bound by `_stop`, clamp into
`[_start, _stop)`, then yield `(idx, get(idx))` in ascending order (nothing
when the clamped range is empty). -/
def enumContig {α : Type} (s : ChunkList α) (a b : Option Int) :
    List (Int × Option α) :=
  let lo0 := match a with
    | Option.none => s.start
    | some v => if v < 0 then v + s.stop else v
  let hi0 := match b with
    | Option.none => s.stop
    | some v => if v < 0 then v + s.stop else v
  let lo := max lo0 s.start
  let hi := min hi0 s.stop
  if lo < hi then (pyRange lo hi 1).map (fun i => (i, s.get i)) else []

/-- The iterable branch of `ChunkList.enumerate`: yield `(idx, get(idx))`
for the selector's indices that lie in `[_start, _stop)`, in selector order. -/
def enumIter {α : Type} (s : ChunkList α) (idxs : List Int) :
    List (Int × Option α) :=
  (idxs.filter (fun i => decide (s.start ≤ i) && decide (i < s.stop))).map
    (fun i => (i, s.get i))

/-- Python `ChunkList.enumerate(_slice)`, with the generator run to completion:
`None` defaults to `keyrange()`; a slice/range with step `None`/`1` takes the
contiguous branch; a slice with another step is converted to
`range(start, stop, step)` (Python raises `TypeError` when a field is `None`
and `ValueError` when the step is `0`) and then, like a stepped range,
handled by the iterable branch; a non-iterable selector raises the
"cannot interpret" exception. -/
def enumerate {α : Type} (s : ChunkList α) (sel : Selector) :
    Except String (List (Int × Option α)) :=
  match sel with
  | Selector.noneSel => Except.ok (s.enumContig (some s.start) (some s.stop))
  | Selector.rangeSel a b st =>
    if st = 1 then Except.ok (s.enumContig (some a) (some b))
    else Except.ok (s.enumIter (pyRange a b st))
  | Selector.sliceSel a b st =>
    if st = Option.none ∨ st = some 1 then Except.ok (s.enumContig a b)
    else
      match a, b, st with
      | some av, some bv, some stv =>
        if stv = 0 then Except.error "ValueError"
        else Except.ok (s.enumIter (pyRange av bv stv))
      | _, _, _ => Except.error "TypeError"
  | Selector.iterSel idxs => Except.ok (s.enumIter idxs)
  | Selector.otherSel =>
    Except.error "ChunkList.enumerate() cannot interpret _slice as slice."

/-- Mutating operations on a `ChunkList`: `append(v)` and `put(idx, item)`. -/
inductive Op (α : Type) where
  | append (v : α) : Op α
  | put (idx : Int) (item : Option α) : Op α

/-- Apply one operation, discarding the returned index. -/
def applyOp {α : Type} (s : ChunkList α) : Op α → ChunkList α
  | Op.append v => (s.append v).2
  | Op.put idx item => s.put idx item

/-- Run a list of operations from a given state. -/
def runFrom {α : Type} (s : ChunkList α) (ops : List (Op α)) : ChunkList α :=
  ops.foldl applyOp s

/-- Run a list of operations from a freshly constructed `ChunkList`. -/
def run {α : Type} (ops : List (Op α)) : ChunkList α :=
  runFrom (init α) ops

/-- The sequence of `(index, stored item)` writes performed by `ops` when
started in a state whose `_stop` is `stp`: an `append` writes `some v` at
the current `_stop` and advances it; a `put` writes at its explicit index. -/
def writesOf {α : Type} : List (Op α) → Int → List (Int × Option α)
  | [], _ => []
  | Op.append v :: rest, stp => (stp, some v) :: writesOf rest (stp + 1)
  | Op.put idx item :: rest, stp => (idx, item) :: writesOf rest stp

/-- The item stored by the chronologically last write at index `idx`
(`none` when `idx` was never written). The list is in chronological order,
so later entries take precedence. -/
def lastW {α : Type} : List (Int × Option α) → Int → Option (Option α)
  | [], _ => Option.none
  | w :: ws, idx =>
    match lastW ws idx with
    | some v => some v
    | Option.none => if w.1 = idx then some w.2 else Option.none

end ChunkList

/-! ## TrimList (`trim_list.py`)

`_data` is a `collections.deque`, modelled as a `List` with the deque's left
end at the head; `_pop_count` is the running count of elements removed from
the left. -/

/-- State of `TrimList`. -/
structure TrimList (α : Type) where
  data : List α
  pop_count : Int

namespace TrimList

/-- Python `TrimList.__init__`: empty deque, zero pop count. -/
def init (α : Type) : TrimList α :=
  { data := [], pop_count := 0 }

/-- Python `TrimList.__len__`: `_pop_count + len(_data)`. -/
def len {α : Type} (s : TrimList α) : Int :=
  s.pop_count + s.data.length

/-- Python `TrimList.indexrange()`: the pair `(start, start + len(_data))` of
`range(start, start + cur_len)` with `start = _pop_count`. -/
def indexrange {α : Type} (s : TrimList α) : Int × Int :=
  (s.pop_count, s.pop_count + s.data.length)

/-- Python `TrimList.__getitem__` on an `int` argument:
`self._data[_slice - self._pop_count]`, with Python deque indexing
(negative wraparound, `IndexError` out of bounds) and no window check. -/
def getitemInt {α : Type} (s : TrimList α) (idx : Int) : Except String α :=
  pyIndex s.data (idx - s.pop_count)

/-- Python `TrimList.append(value)`: push right; return `len(_data) + _pop_count`
computed before the push. -/
def append {α : Type} (s : TrimList α) (value : α) : Int × TrimList α :=
  let idx : Int := s.data.length
  (idx + s.pop_count, { s with data := s.data ++ [value] })

/-- Python `TrimList.pop_left()`: `None` on an empty deque, else pop the left
element and bump `_pop_count`. -/
def pop_left {α : Type} (s : TrimList α) : Option α × TrimList α :=
  match s.data with
  | [] => (Option.none, s)
  | v :: rest => (some v, { data := rest, pop_count := s.pop_count + 1 })

/-- Python `TrimList.trim_before(idx)`: with `cur_len = len(_data)`,
`target_len = max(0, cur_len + _pop_count - idx)` and
`trim_count = max(0, cur_len - target_len)`, pop `trim_count` elements from
the left in order, add `trim_count` to `_pop_count`, and return the popped
values in removal order. -/
def trim_before {α : Type} (s : TrimList α) (idx : Int) : List α × TrimList α :=
  let cur_len : Int := s.data.length
  let target_len := max 0 (cur_len + s.pop_count - idx)
  let trim_count := (max 0 (cur_len - target_len)).toNat
  (s.data.take trim_count,
   { data := s.data.drop trim_count, pop_count := s.pop_count + trim_count })

/-- Contract operations on a `TrimList`. -/
inductive Op (α : Type) where
  | append (v : α) : Op α
  | popLeft : Op α
  | trimBefore (idx : Int) : Op α

/-- Run a list of operations, collecting every element actually removed
(by `pop_left` or `trim_before`) in removal order. -/
def runTrace {α : Type} : TrimList α → List (Op α) → TrimList α × List α
  | s, [] => (s, [])
  | s, Op.append v :: rest => runTrace (s.append v).2 rest
  | s, Op.popLeft :: rest =>
    let p := s.pop_left
    let r := runTrace p.2 rest
    (r.1, (match p.1 with | some v => [v] | Option.none => []) ++ r.2)
  | s, Op.trimBefore idx :: rest =>
    let t := s.trim_before idx
    let r := runTrace t.2 rest
    (r.1, t.1 ++ r.2)

/-- The state after running `ops` on a fresh `TrimList`. -/
def run {α : Type} (ops : List (Op α)) : TrimList α :=
  (runTrace (init α) ops).1

/-- The values appended by `ops`, in append order (the i-th entry is the
element given global index `i` when run from a fresh `TrimList`). -/
def appendedVals {α : Type} : List (Op α) → List α
  | [] => []
  | Op.append v :: rest => v :: appendedVals rest
  | Op.popLeft :: rest => appendedVals rest
  | Op.trimBefore _ :: rest => appendedVals rest

end TrimList

/-! ## ChunkListAdapter (`demo_trimmable_list_benchmark.py`)

The benchmark adapter layering virtual trim semantics over `ChunkList`. -/

/-- State of `ChunkListAdapter`: the wrapped `ChunkList` plus the virtual
trim point `_trimmed`. -/
structure ChunkListAdapter (α : Type) where
  impl : ChunkList α
  trimmed : Int

namespace ChunkListAdapter

/-- Python `ChunkListAdapter.__init__`. -/
def init (α : Type) : ChunkListAdapter α :=
  { impl := ChunkList.init α, trimmed := 0 }

/-- Python `ChunkListAdapter.append(value)`: calls `self._impl.append(value)` and
falls off the end without a `return`, so the Python call returns `None`
(despite the declared `-> int`). -/
def append {α : Type} (s : ChunkListAdapter α) (value : α) :
    Option Int × ChunkListAdapter α :=
  (Option.none, { s with impl := (s.impl.append value).2 })

/-- Python `ChunkListAdapter.trim_before(idx)`: `_trimmed = max(_trimmed, idx)`;
no storage is reclaimed and nothing is returned. -/
def trim_before {α : Type} (s : ChunkListAdapter α) (idx : Int) :
    ChunkListAdapter α :=
  { s with trimmed := max s.trimmed idx }

/-- Python `ChunkListAdapter.indexrange()`: bounds of `range(_trimmed, kr.stop)`. -/
def indexrange {α : Type} (s : ChunkListAdapter α) : Int × Int :=
  (s.trimmed, (s.impl.keyrange).2)

/-- Python `ChunkListAdapter.__getitem__(idx)`: `None` below the virtual trim
point, else `self._impl.get(idx)`. -/
def getitem {α : Type} (s : ChunkListAdapter α) (idx : Int) : Option α :=
  if idx < s.trimmed then Option.none else s.impl.get idx

/-- Python `ChunkListAdapter.__len__`: `kr.stop` of `self._impl.keyrange()`. -/
def len {α : Type} (s : ChunkListAdapter α) : Int :=
  (s.impl.keyrange).2

/-- Contract operations on a `ChunkListAdapter` (it has no `pop_left`). -/
inductive Op (α : Type) where
  | append (v : α) : Op α
  | trimBefore (idx : Int) : Op α

/-- Apply one adapter operation, discarding the (always-`None`) result. -/
def applyOp {α : Type} (s : ChunkListAdapter α) : Op α → ChunkListAdapter α
  | Op.append v => (s.append v).2
  | Op.trimBefore idx => s.trim_before idx

/-- Run a list of adapter operations from a fresh adapter. -/
def run {α : Type} (ops : List (Op α)) : ChunkListAdapter α :=
  ops.foldl applyOp (init α)

end ChunkListAdapter

/-! ## Helper lemmas -/

namespace ChunkList

/-- Recomposing a decomposition recovers the index, for every integer. -/
theorem compose_decompose (idx : Int) : compose (decompose idx) = idx := by
  simp only [decompose, compose]
  omega

/-- On indices below `128³`, the discarded remainder is zero. -/
theorem decompose_fst_eq_zero {idx : Int} (h0 : 0 ≤ idx) (h1 : idx < 128 ^ 3) :
    (decompose idx).1 = 0 := by
  simp only [decompose]
  omega

/-- Two indices below `128³` with the same `(k1, k2, k3)` triple coincide. -/
theorem decompose_inj_below {a b : Int} (ha0 : 0 ≤ a) (ha1 : a < 128 ^ 3)
    (hb0 : 0 ≤ b) (hb1 : b < 128 ^ 3)
    (h : (decompose a).2 = (decompose b).2) : a = b := by
  have hfa := decompose_fst_eq_zero ha0 ha1
  have hfb := decompose_fst_eq_zero hb0 hb1
  have : decompose a = decompose b := by
    rcases hd : decompose a with ⟨ra, ta⟩
    rcases he : decompose b with ⟨rb, tb⟩
    simp only [hd, he] at hfa hfb h ⊢
    simp [hfa, hfb, h]
  calc a = compose (decompose a) := (compose_decompose a).symm
    _ = compose (decompose b) := by rw [this]
    _ = b := compose_decompose b

/-- Writing at `j` does not change `_start`. -/
theorem put_start {α : Type} (s : ChunkList α) (j : Int) (it : Option α) :
    (s.put j it).start = s.start := rfl

/-- Writing at `j` does not change `_stop`. -/
theorem put_stop {α : Type} (s : ChunkList α) (j : Int) (it : Option α) :
    (s.put j it).stop = s.stop := rfl

/-- The chunk walk ignores the window fields. -/
theorem getRaw_setStop {α : Type} (s : ChunkList α) (t idx : Int) :
    ({ s with stop := t } : ChunkList α).getRaw idx = s.getRaw idx := rfl

/-- Reading back the slot just written yields the written item. -/
theorem getRaw_put_self {α : Type} (s : ChunkList α) (j : Int) (it : Option α) :
    (s.put j it).getRaw j = it := by
  simp [put, getRaw]

/-- Writing at `j` leaves the chunk walk of any index with a different
`(k1, k2, k3)` triple unchanged. -/
theorem getRaw_put_ne {α : Type} (s : ChunkList α) (j idx : Int) (it : Option α)
    (h : (decompose idx).2 ≠ (decompose j).2) :
    (s.put j it).getRaw idx = s.getRaw idx := by
  by_cases h1 : (decompose idx).2.1 = (decompose j).2.1
  · by_cases h2 : (decompose idx).2.2.1 = (decompose j).2.2.1
    · by_cases h3 : (decompose idx).2.2.2 = (decompose j).2.2.2
      · exact absurd (Prod.ext h1 (Prod.ext h2 h3)) h
      · cases hd : s.data (decompose j).2.1 with
        | none =>
          simp [put, getRaw, h1, h2, h3, hd, emptyChunk2, emptyChunk3]
        | some c1 =>
          cases he : c1 (decompose j).2.2.1 with
          | none =>
            simp [put, getRaw, h1, h2, h3, hd, he, emptyChunk2, emptyChunk3]
          | some c2 =>
            simp [put, getRaw, h1, h2, h3, hd, he, emptyChunk2, emptyChunk3]
    · cases hd : s.data (decompose j).2.1 with
      | none =>
        simp [put, getRaw, h1, h2, hd, emptyChunk2, emptyChunk3]
      | some c1 =>
        simp [put, getRaw, h1, h2, hd, emptyChunk2, emptyChunk3]
  · simp [put, getRaw, h1]

/-- A write recorded by `lastW` occurs in the write list. -/
theorem lastW_some_mem {α : Type} {ws : List (Int × Option α)} {idx : Int}
    {v : Option α} (h : lastW ws idx = some v) : (idx, v) ∈ ws := by
  induction ws with
  | nil => simp [lastW] at h
  | cons w ws ih =>
    rw [lastW] at h
    rcases hw : lastW ws idx with _ | u
    · rw [hw] at h
      by_cases he : w.1 = idx
      · rw [if_pos he] at h
        have : w = (idx, v) := by
          rcases w with ⟨a, b⟩
          simp only at he
          simp only [Option.some.injEq] at h
          simp [he, h]
        simp [this]
      · rw [if_neg he] at h
        exact absurd h (by simp)
    · rw [hw] at h
      simp only [Option.some.injEq] at h
      subst h
      exact List.mem_cons_of_mem _ (ih hw)

/-- Running operations never changes `_start`. -/
theorem start_runFrom {α : Type} (ops : List (Op α)) (s : ChunkList α) :
    (runFrom s ops).start = s.start := by
  induction ops generalizing s with
  | nil => rfl
  | cons op rest ih =>
    cases op with
    | append v => exact (ih _).trans rfl
    | put j it => exact (ih _).trans rfl

/-- The number of `append` operations in a list. -/
def appendCount {α : Type} : List (Op α) → Int
  | [] => 0
  | Op.append _ :: rest => 1 + appendCount rest
  | Op.put _ _ :: rest => appendCount rest

/-- Running operations advances `_stop` by the number of appends. -/
theorem stop_runFrom {α : Type} (ops : List (Op α)) (s : ChunkList α) :
    (runFrom s ops).stop = s.stop + appendCount ops := by
  induction ops generalizing s with
  | nil => simp [runFrom, appendCount]
  | cons op rest ih =>
    cases op with
    | append v =>
      have := ih ((s.append v).2)
      simp only [runFrom, List.foldl_cons, applyOp] at this ⊢
      rw [this]
      simp only [append, put_stop, appendCount]
      omega
    | put j it =>
      have := ih (s.put j it)
      simp only [runFrom, List.foldl_cons, applyOp] at this ⊢
      rw [this]
      simp only [put_stop, appendCount]

/-- Main simulation lemma: after running `ops` from `s`, the chunk walk at
any index below `128³` returns the last item written there (or the original
walk result if `ops` never wrote there), provided all writes stay below
`128³`. -/
theorem getRaw_runFrom {α : Type} (ops : List (Op α)) (s : ChunkList α)
    (idx : Int) (hidx0 : 0 ≤ idx) (hidx1 : idx < 128 ^ 3)
    (hw : ∀ w ∈ writesOf ops s.stop, 0 ≤ w.1 ∧ w.1 < 128 ^ 3) :
    (runFrom s ops).getRaw idx =
      match lastW (writesOf ops s.stop) idx with
      | some v => v
      | Option.none => s.getRaw idx := by
  induction ops generalizing s with
  | nil => simp [runFrom, writesOf, lastW]
  | cons op rest ih =>
    cases op with
    | put j it =>
      have hstop : (s.put j it).stop = s.stop := put_stop s j it
      have hrec := ih (s.put j it)
        (by rw [hstop]; intro w hmem; exact hw w (List.mem_cons_of_mem _ hmem))
      simp only [runFrom, List.foldl_cons, applyOp] at hrec ⊢
      rw [hrec, hstop]
      simp only [writesOf, lastW]
      rcases hl : lastW (writesOf rest s.stop) idx with _ | v
      · have hj := hw (j, it) (by simp [writesOf])
        by_cases he : j = idx
        · subst he
          rw [if_pos rfl, getRaw_put_self]
        · rw [if_neg he, getRaw_put_ne]
          intro hcontra
          exact he (decompose_inj_below hj.1 hj.2 hidx0 hidx1 hcontra.symm)
      · rfl
    | append v =>
      have hstop : ((s.append v).2).stop = s.stop + 1 := by
        simp [append, put_stop]
      have hrec := ih ((s.append v).2)
        (by rw [hstop]; intro w hmem; exact hw w (List.mem_cons_of_mem _ hmem))
      simp only [runFrom, List.foldl_cons, applyOp] at hrec ⊢
      rw [hrec, hstop]
      simp only [writesOf, lastW]
      rcases hl : lastW (writesOf rest (s.stop + 1)) idx with _ | u
      · have hj := hw (s.stop, some v) (by simp [writesOf])
        by_cases he : s.stop = idx
        · subst he
          rw [if_pos rfl]
          simp only [append]
          rw [getRaw_put_self]
        · rw [if_neg he]
          simp only [append]
          rw [getRaw_put_ne, getRaw_setStop]
          intro hcontra
          exact he (decompose_inj_below hj.1 hj.2 hidx0 hidx1 hcontra.symm)
      · rfl

end ChunkList

namespace TrimList

/-- Structural invariant of a `TrimList` run: the final pop count exceeds
the initial one by the number of removed elements, and the removed values
followed by the remaining deque reconstitute the initial deque followed by
all appended values. -/
theorem runTrace_inv {α : Type} (ops : List (Op α)) (s : TrimList α) :
    (runTrace s ops).1.pop_count = s.pop_count + (runTrace s ops).2.length ∧
    (runTrace s ops).2 ++ (runTrace s ops).1.data = s.data ++ appendedVals ops := by
  induction ops generalizing s with
  | nil => simp [runTrace, appendedVals]
  | cons op rest ih =>
    cases op with
    | append v =>
      have h := ih ((s.append v).2)
      simp only [runTrace, appendedVals]
      refine ⟨by rw [h.1]; rfl, ?_⟩
      rw [h.2]
      simp [append]
    | popLeft =>
      cases hd : s.data with
      | nil =>
        have h := ih s.pop_left.2
        simp only [runTrace, pop_left, hd] at h ⊢
        simpa [appendedVals, hd] using h
      | cons x xs =>
        have h := ih (⟨xs, s.pop_count + 1⟩ : TrimList α)
        simp only [runTrace, pop_left, hd] at h ⊢
        constructor
        · rw [h.1]
          simp
          omega
        · simp only [appendedVals, hd, List.cons_append, List.append_assoc] at h ⊢
          rw [h.2]
          simp
    | trimBefore idx =>
      have h := ih (s.trim_before idx).2
      simp only [runTrace] at h ⊢
      constructor
      · rw [h.1]
        simp only [trim_before, List.length_append, List.length_take]
        have hlen : ((max 0 ((s.data.length : Int) -
            max 0 ((s.data.length : Int) + s.pop_count - idx))).toNat)
            ≤ s.data.length := by omega
        simp [Nat.min_eq_left hlen]
        omega
      · simp only [appendedVals, List.append_assoc] at h ⊢
        rw [h.2]
        simp only [trim_before]
        rw [← List.append_assoc, List.take_append_drop]

/-- A trim whose target lies at or below the window start, or a trim of an
empty deque, is a no-op returning an empty list. -/
theorem trim_before_noop {α : Type} (s : TrimList α) (j : Int)
    (h : j ≤ s.pop_count ∨ s.data = []) : s.trim_before j = ([], s) := by
  have h0 : (max 0 ((s.data.length : Int) -
      max 0 ((s.data.length : Int) + s.pop_count - j))).toNat = 0 := by
    rcases h with h | h
    · omega
    · rw [h]
      simp
  simp [TrimList.trim_before, h0]

/-- The pop count of a run from a fresh `TrimList` equals the number of
removed elements. -/
theorem run_pop_count {α : Type} (ops : List (Op α)) :
    (runTrace (init α) ops).1.pop_count = (runTrace (init α) ops).2.length := by
  have h := (runTrace_inv ops (init α)).1
  simpa [init] using h

/-- The remaining deque of a run from a fresh `TrimList` holds precisely
the appended values with the removed prefix dropped. -/
theorem run_data {α : Type} (ops : List (Op α)) :
    (runTrace (init α) ops).2 ++ (runTrace (init α) ops).1.data =
      appendedVals ops := by
  have h := (runTrace_inv ops (init α)).2
  simpa [init] using h

end TrimList

namespace ChunkListAdapter

/-- The number of `append` operations in a list of adapter operations. -/
def appendCount {α : Type} : List (Op α) → Int
  | [] => 0
  | Op.append _ :: rest => 1 + appendCount rest
  | Op.trimBefore _ :: rest => appendCount rest

/-- The running maximum of `0` and all `trim_before` arguments. -/
def maxTrim {α : Type} (t : Int) : List (Op α) → Int
  | [] => t
  | Op.append _ :: rest => maxTrim t rest
  | Op.trimBefore idx :: rest => maxTrim (max t idx) rest

/-- Running adapter operations advances the wrapped `_stop` by the number of
appends and leaves the wrapped `_start` at its initial value. -/
theorem runFoldl_impl {α : Type} (ops : List (Op α)) (s : ChunkListAdapter α) :
    (ops.foldl applyOp s).impl.stop = s.impl.stop + appendCount ops ∧
    (ops.foldl applyOp s).impl.start = s.impl.start := by
  induction ops generalizing s with
  | nil => simp [appendCount]
  | cons op rest ih =>
    cases op with
    | append v =>
      have h := ih ((s.append v).2)
      simp only [List.foldl_cons, applyOp] at h ⊢
      refine ⟨?_, ?_⟩
      · rw [h.1]
        simp only [append, ChunkList.append, ChunkList.put_stop, appendCount]
        omega
      · rw [h.2]
        rfl
    | trimBefore idx =>
      have h := ih (s.trim_before idx)
      simp only [List.foldl_cons, applyOp, appendCount] at h ⊢
      exact ⟨h.1, h.2⟩

/-- Running adapter operations accumulates `_trimmed` as the running maximum
of the trim arguments. -/
theorem runFoldl_trimmed {α : Type} (ops : List (Op α)) (s : ChunkListAdapter α) :
    (ops.foldl applyOp s).trimmed = maxTrim s.trimmed ops := by
  induction ops generalizing s with
  | nil => rfl
  | cons op rest ih =>
    cases op with
    | append v =>
      have h := ih ((s.append v).2)
      simp only [List.foldl_cons, applyOp, maxTrim] at h ⊢
      exact h
    | trimBefore idx =>
      have h := ih (s.trim_before idx)
      simp only [List.foldl_cons, applyOp, maxTrim] at h ⊢
      exact h

/-- The running maximum dominates its seed. -/
theorem le_maxTrim {α : Type} (ops : List (Op α)) (t : Int) :
    t ≤ maxTrim t ops := by
  induction ops generalizing t with
  | nil => simp [maxTrim]
  | cons op rest ih =>
    cases op with
    | append v => exact ih t
    | trimBefore idx => exact le_trans (le_max_left t idx) (ih (max t idx))

/-- Append counts are nonnegative. -/
theorem appendCount_nonneg {α : Type} (ops : List (Op α)) :
    0 ≤ appendCount ops := by
  induction ops with
  | nil => simp [appendCount]
  | cons op rest ih =>
    cases op with
    | append v => simp only [appendCount]; omega
    | trimBefore idx => simpa [appendCount] using ih

/-- A bound on the seed and on every trim argument bounds the running
maximum. -/
theorem maxTrim_le {α : Type} (ops : List (Op α)) (t bound : Int)
    (ht : t ≤ bound)
    (h : ∀ idx, Op.trimBefore idx ∈ ops → idx ≤ (bound : Int)) :
    maxTrim t ops ≤ bound := by
  induction ops generalizing t with
  | nil => simpa [maxTrim] using ht
  | cons op rest ih =>
    cases op with
    | append v =>
      exact ih t ht (fun idx hmem => h idx (List.mem_cons_of_mem _ hmem))
    | trimBefore idx =>
      refine ih (max t idx) ?_ (fun j hmem => h j (List.mem_cons_of_mem _ hmem))
      exact max_le ht (h idx (List.mem_cons_self _ _))

end ChunkListAdapter

/-- Projecting the first components of an index-value pairing recovers the
index list. -/
theorem map_fst_pair {γ β : Type} (f : γ → β) (l : List γ) :
    (l.map (fun i => (i, f i))).map Prod.fst = l := by
  induction l with
  | nil => rfl
  | cons x xs ih => simp [ih]

/-- An empty step-1 Python range. -/
theorem pyRange_one_nil {a b : Int} (h : b ≤ a) : pyRange a b 1 = [] := by
  simp only [pyRange, if_neg (by omega : ¬(1 : Int) = 0),
    if_pos (by omega : (0 : Int) < 1)]
  have h1 : (b - a + 1 - 1) / 1 = b - a := by omega
  rw [h1]
  have h2 : (b - a).toNat = 0 := by omega
  rw [h2]
  simp

/-! ## Claim theorems -/

/-- C9: `_compose` inverts the 7-bit decomposition: for every integer index
`≥ 0`, `_compose(_decompose(index)) == index`, and for every tuple
`(remainder, k1, k2, k3)` with `remainder ≥ 0` and each `kᵢ` in `[0, 128)`,
`_decompose(_compose(tuple))` returns the same tuple. -/
theorem claimC9_compose_inverse :
    (∀ idx : Int, 0 ≤ idx →
      ChunkList.compose (ChunkList.decompose idx) = idx) ∧
    (∀ r k1 k2 k3 : Int, 0 ≤ r → 0 ≤ k1 → k1 < 128 → 0 ≤ k2 → k2 < 128 →
      0 ≤ k3 → k3 < 128 →
      ChunkList.decompose (ChunkList.compose (r, k1, k2, k3)) =
        (r, k1, k2, k3)) := by
  constructor
  · intro idx _
    exact ChunkList.compose_decompose idx
  · intro r k1 k2 k3 hr h1a h1b h2a h2b h3a h3b
    simp only [ChunkList.decompose, ChunkList.compose, Prod.mk.injEq]
    refine ⟨?_, ?_, ?_, ?_⟩ <;> omega

/-- Witness for C9 at concrete inputs. -/
theorem claimC9_witness :
    ChunkList.compose (ChunkList.decompose 2345678) = 2345678 ∧
    ChunkList.decompose (ChunkList.compose (2, 3, 4, 5)) = (2, 3, 4, 5) :=
  ⟨claimC9_compose_inverse.1 2345678 (by decide),
   claimC9_compose_inverse.2 2 3 4 5 (by decide) (by decide) (by decide)
     (by decide) (by decide) (by decide) (by decide)⟩

/-- C7: for every `TrimList` state and integer `idx`, `trim_before(idx)`
pops exactly `min(len(_data), max(0, idx - start))` leading elements (with
`start = _pop_count`) from the front in order, returns them in removal
order, and increases `_pop_count` by that same number; calling it with
`idx ≤ start` removes nothing, returns `[]`, and leaves the state unchanged,
and a second call with a not-larger argument is always a no-op. -/
theorem claimC7_trim_before_spec {α : Type} (s : TrimList α) (idx : Int) :
    (s.trim_before idx).1 =
      s.data.take (min (s.data.length : Int)
        (max 0 (idx - s.pop_count))).toNat ∧
    (s.trim_before idx).2.data =
      s.data.drop (min (s.data.length : Int)
        (max 0 (idx - s.pop_count))).toNat ∧
    (s.trim_before idx).2.pop_count =
      s.pop_count + min (s.data.length : Int) (max 0 (idx - s.pop_count)) ∧
    (idx ≤ s.pop_count → s.trim_before idx = ([], s)) ∧
    (∀ j, j ≤ idx →
      ((s.trim_before idx).2).trim_before j = ([], (s.trim_before idx).2)) := by
  rcases s with ⟨d, pc⟩
  have hn : (max 0 ((d.length : Int) -
      max 0 ((d.length : Int) + pc - idx))).toNat =
      (min (d.length : Int) (max 0 (idx - pc))).toNat := by omega
  refine ⟨?_, ?_, ?_, ?_, ?_⟩
  · simp only [TrimList.trim_before, hn]
  · simp only [TrimList.trim_before, hn]
  · simp [TrimList.trim_before]
    omega
  · intro h
    exact TrimList.trim_before_noop _ idx (Or.inl h)
  · intro j hj
    refine TrimList.trim_before_noop _ j ?_
    by_cases hc : idx ≤ pc + (d.length : Int)
    · left
      simp [TrimList.trim_before]
      omega
    · right
      simp [TrimList.trim_before]
      omega

/-- Witness for C7 at a concrete state and trim index. -/
theorem claimC7_witness :
    ((⟨[5, 6, 7], 2⟩ : TrimList Int).trim_before 4).1 =
      [5, 6, 7].take ((min ((3 : Nat) : Int) (max 0 (4 - 2))).toNat) ∧
    (4 ≤ (2 : Int) → (⟨[5, 6, 7], 2⟩ : TrimList Int).trim_before 4 =
      ([], ⟨[5, 6, 7], 2⟩)) ∧
    (((⟨[5, 6, 7], 2⟩ : TrimList Int).trim_before 4).2).trim_before 3 =
      ([], ((⟨[5, 6, 7], 2⟩ : TrimList Int).trim_before 4).2) := by
  have h := claimC7_trim_before_spec (⟨[5, 6, 7], 2⟩ : TrimList Int) 4
  exact ⟨h.1, h.2.2.2.1, h.2.2.2.2 3 (by decide)⟩

/-- C3 (code bug): `ChunkList.put` at `128³` raises no capacity error; the
decomposition silently discards the remainder `1` and the write lands on the
slot of index `0`, clobbering the element stored there. -/
theorem claimC3_capacity_bug :
    ChunkList.decompose (128 ^ 3) = (1, 0, 0, 0) ∧
    (ChunkList.run [ChunkList.Op.append (10 : Int)]).get 0 = some 10 ∧
    ((ChunkList.run [ChunkList.Op.append (10 : Int)]).put (128 ^ 3)
        (some 99)).get 0 = some 99 := by
  refine ⟨by decide, by decide, by decide⟩

/-- C4 (code bug): `ChunkListAdapter.append` falls off the end without a
`return`, so it yields Python `None` instead of the assigned index, although
the element is stored at global index `0`, `ChunkList.append` itself returns
that index, and `TrimList.append` returns the count of previously appended
elements as required. -/
theorem claimC4_adapter_append_bug :
    (ChunkListAdapter.append (ChunkListAdapter.init Int) 7).1 = Option.none ∧
    (ChunkList.append (ChunkList.init Int) 7).1 = 0 ∧
    ((ChunkListAdapter.append (ChunkListAdapter.init Int) 7).2.impl.get 0 =
      some 7) ∧
    (∀ (ops : List (TrimList.Op Int)) (v : Int),
      ((TrimList.run ops).append v).1 =
        ((TrimList.appendedVals ops).length : Int)) := by
  refine ⟨rfl, rfl, by decide, ?_⟩
  intro ops v
  have h1 := TrimList.run_pop_count ops
  have h2 := congrArg List.length (TrimList.run_data ops)
  simp only [List.length_append] at h2
  simp only [TrimList.append, TrimList.run] at h1 ⊢
  omega

/-- C1 counterexample: on the reachable `TrimList` state obtained by two
appends and `trim_before(1)` the window is `[1, 2)`, yet reading the
out-of-window index `0` returns the live element `20` (stored at global
index `1`) through Python's negative deque indexing — not the absence
value. -/
theorem claimC1_counterexample :
    (TrimList.run [TrimList.Op.append (10 : Int), TrimList.Op.append 20,
      TrimList.Op.trimBefore 1]).indexrange = (1, 2) ∧
    (TrimList.run [TrimList.Op.append (10 : Int), TrimList.Op.append 20,
      TrimList.Op.trimBefore 1]).getitemInt 0 = Except.ok 20 :=
  ⟨rfl, rfl⟩

/-- C1 (amended): `ChunkList.get` returns the absence value for every state
and every index outside `[start, stop)`; `TrimList.__getitem__` performs no
window check, and an out-of-window integer read either raises `IndexError`
or returns an element currently inside the window (via negative deque
indexing) — never a stale, trimmed-away value and never the absence
value. -/
theorem claimC1_out_of_window_amended {α : Type} :
    (∀ (s : ChunkList α) (idx : Int), idx < s.start ∨ s.stop ≤ idx →
      s.get idx = Option.none) ∧
    (∀ (s : TrimList α) (idx : Int),
      idx < s.pop_count ∨ s.pop_count + (s.data.length : Int) ≤ idx →
      s.getitemInt idx = Except.error "IndexError" ∨
        ∃ v, s.getitemInt idx = Except.ok v ∧ v ∈ s.data) := by
  constructor
  · intro s idx h
    have hw : ¬(s.start ≤ idx ∧ idx < s.stop) := by omega
    simp [ChunkList.get, hw]
  · intro s idx h
    simp only [TrimList.getitemInt, pyIndex]
    by_cases hneg : idx - s.pop_count < 0
    · rw [if_pos hneg]
      by_cases hlow : idx - s.pop_count + (s.data.length : Int) < 0
      · rw [if_pos hlow]
        exact Or.inl rfl
      · rw [if_neg hlow]
        have hb : (idx - s.pop_count + (s.data.length : Int)).toNat <
            s.data.length := by omega
        rw [List.get?_eq_get hb]
        exact Or.inr ⟨_, rfl, List.get_mem _ _ hb⟩
    · rw [if_neg hneg]
      have hge : s.pop_count + (s.data.length : Int) ≤ idx := by omega
      rw [if_neg (by omega : ¬(idx - s.pop_count < 0))]
      rw [List.get?_eq_none.2 (by omega)]
      exact Or.inl rfl

/-- Witness for C1 (amended) at concrete states and indices. -/
theorem claimC1_witness :
    (ChunkList.init Int).get 5 = Option.none ∧
    ((⟨[20], 1⟩ : TrimList Int).getitemInt 0 = Except.error "IndexError" ∨
      ∃ v, (⟨[20], 1⟩ : TrimList Int).getitemInt 0 = Except.ok v ∧
        v ∈ ([20] : List Int)) :=
  ⟨claimC1_out_of_window_amended.1 (ChunkList.init Int) 5
      (Or.inr (by decide)),
   claimC1_out_of_window_amended.2 (⟨[20], 1⟩ : TrimList Int) 0
      (Or.inl (by decide))⟩

/-- C2 counterexample: on the reachable `TrimList` state obtained by two
appends and `trim_before(1)`, `__len__` returns `2` (the total appended
count) while `stop - start = 1`. -/
theorem claimC2_counterexample :
    (TrimList.run [TrimList.Op.append (10 : Int), TrimList.Op.append 20,
      TrimList.Op.trimBefore 1]).len = 2 ∧
    ((TrimList.run [TrimList.Op.append (10 : Int), TrimList.Op.append 20,
        TrimList.Op.trimBefore 1]).indexrange.2 -
      (TrimList.run [TrimList.Op.append (10 : Int), TrimList.Op.append 20,
        TrimList.Op.trimBefore 1]).indexrange.1) = 1 ∧
    (TrimList.run [TrimList.Op.append (10 : Int), TrimList.Op.append 20,
        TrimList.Op.trimBefore 1]).len ≠
      ((TrimList.run [TrimList.Op.append (10 : Int), TrimList.Op.append 20,
          TrimList.Op.trimBefore 1]).indexrange.2 -
        (TrimList.run [TrimList.Op.append (10 : Int), TrimList.Op.append 20,
          TrimList.Op.trimBefore 1]).indexrange.1) := by
  refine ⟨rfl, rfl, by decide⟩

/-- C2 (amended): for both contract implementations, `length()` returns
`stop` — the total number of elements ever appended — rather than
`stop - start`; the two coincide only when nothing has been removed. -/
theorem claimC2_len_amended {α : Type} :
    (∀ ops : List (TrimList.Op α),
      (TrimList.run ops).len = ((TrimList.appendedVals ops).length : Int) ∧
      (TrimList.run ops).len = (TrimList.run ops).indexrange.2) ∧
    (∀ ops : List (ChunkListAdapter.Op α),
      (ChunkListAdapter.run ops).len = ChunkListAdapter.appendCount ops ∧
      (ChunkListAdapter.run ops).len =
        (ChunkListAdapter.run ops).indexrange.2) := by
  constructor
  · intro ops
    have h1 := TrimList.run_pop_count ops
    have h2 := congrArg List.length (TrimList.run_data ops)
    simp only [List.length_append] at h2
    constructor
    · simp only [TrimList.len, TrimList.run] at h1 ⊢
      omega
    · rfl
  · intro ops
    have h := ChunkListAdapter.runFoldl_impl ops (ChunkListAdapter.init α)
    constructor
    · have : (ChunkListAdapter.init α).impl.stop = 0 := rfl
      simp only [ChunkListAdapter.len, ChunkListAdapter.run,
        ChunkList.keyrange] at h ⊢
      rw [h.1, this]
      omega
    · rfl

/-- C10: in every `TrimList` state with `L = len(_data) ≥ 1`, an integer
read at `idx` with `start - L ≤ idx < start` (where `start = _pop_count`)
neither returns absence nor raises: through Python's negative deque indexing
it returns the live element stored at global index `idx + L` (deque position
`idx + L - start`); a read below `start - L` raises `IndexError`. -/
theorem claimC10_negative_indexing {α : Type} (s : TrimList α) (idx : Int)
    (hL : 1 ≤ s.data.length) :
    (s.pop_count - (s.data.length : Int) ≤ idx → idx < s.pop_count →
      ∃ v, s.data.get? (idx + (s.data.length : Int) - s.pop_count).toNat =
          some v ∧
        s.getitemInt idx = Except.ok v) ∧
    (idx < s.pop_count - (s.data.length : Int) →
      s.getitemInt idx = Except.error "IndexError") := by
  constructor
  · intro hlo hhi
    have hb : (idx + (s.data.length : Int) - s.pop_count).toNat <
        s.data.length := by omega
    refine ⟨s.data.get ⟨_, hb⟩, List.get?_eq_get hb, ?_⟩
    simp only [TrimList.getitemInt, pyIndex]
    rw [if_pos (by omega : idx - s.pop_count < 0)]
    rw [if_neg (by omega : ¬(idx - s.pop_count + (s.data.length : Int) < 0))]
    have he : (idx - s.pop_count + (s.data.length : Int)).toNat =
        (idx + (s.data.length : Int) - s.pop_count).toNat := by omega
    rw [he, List.get?_eq_get hb]
  · intro hlow
    simp only [TrimList.getitemInt, pyIndex]
    rw [if_pos (by omega : idx - s.pop_count < 0)]
    rw [if_pos (by omega : idx - s.pop_count + (s.data.length : Int) < 0)]

/-- Witness for C10 at a concrete state and indices. -/
theorem claimC10_witness :
    (∃ v, ([7, 8] : List Int).get? ((0 : Int) + ((2 : Nat) : Int) - 1).toNat =
        some v ∧
      (⟨[7, 8], 1⟩ : TrimList Int).getitemInt 0 = Except.ok v) ∧
    (⟨[7, 8], 1⟩ : TrimList Int).getitemInt (-2) =
      Except.error "IndexError" :=
  ⟨(claimC10_negative_indexing (⟨[7, 8], 1⟩ : TrimList Int) 0
      (by decide)).1 (by decide) (by decide),
   (claimC10_negative_indexing (⟨[7, 8], 1⟩ : TrimList Int) (-2)
      (by decide)).2 (by decide)⟩

/-- C5: read-after-write. For any `ChunkList` operation sequence whose
written indices all lie below `128³`, reading an index inside the window
that has been written returns exactly the last item appended or `put`
there; for any `TrimList` operation sequence, reading an in-window index
returns exactly the value appended at that global index. -/
theorem claimC5_read_after_write {α : Type} :
    (∀ ops : List (ChunkList.Op α),
      (∀ w ∈ ChunkList.writesOf ops 0, 0 ≤ w.1 ∧ w.1 < 128 ^ 3) →
      ∀ (idx : Int) (v : Option α), (ChunkList.run ops).start ≤ idx →
        idx < (ChunkList.run ops).stop →
        ChunkList.lastW (ChunkList.writesOf ops 0) idx = some v →
        (ChunkList.run ops).get idx = v) ∧
    (∀ (ops : List (TrimList.Op α)) (idx : Int) (v : α),
      (TrimList.run ops).pop_count ≤ idx →
      idx < (TrimList.run ops).pop_count +
        ((TrimList.run ops).data.length : Int) →
      (TrimList.appendedVals ops).get? idx.toNat = some v →
      (TrimList.run ops).getitemInt idx = Except.ok v) := by
  constructor
  · intro ops hw idx v hlo hhi hlast
    have hstart : (ChunkList.run ops).start = 0 :=
      ChunkList.start_runFrom ops (ChunkList.init α)
    have hidx0 : 0 ≤ idx := by omega
    have hmem : (idx, v) ∈ ChunkList.writesOf ops 0 :=
      ChunkList.lastW_some_mem hlast
    have hidx1 : idx < 128 ^ 3 := (hw _ hmem).2
    have hmain := ChunkList.getRaw_runFrom ops (ChunkList.init α) idx
      hidx0 hidx1 hw
    have hz : ChunkList.writesOf ops (ChunkList.init α).stop =
        ChunkList.writesOf ops 0 := rfl
    rw [hz, hlast] at hmain
    simp only [ChunkList.get, ChunkList.run] at hmain ⊢
    rw [if_pos ⟨hlo, hhi⟩]
    exact hmain
  · intro ops idx v hlo hhi hv
    have h1 := TrimList.run_pop_count ops
    have h2 := TrimList.run_data ops
    have hlen := congrArg List.length h2
    simp only [List.length_append] at hlen
    simp only [TrimList.run] at hlo hhi h1 ⊢
    have hnat : (TrimList.runTrace (TrimList.init α) ops).2.length ≤
        idx.toNat := by omega
    have hsplit : (TrimList.appendedVals ops).get? idx.toNat =
        (TrimList.runTrace (TrimList.init α) ops).1.data.get?
          (idx.toNat - (TrimList.runTrace (TrimList.init α) ops).2.length) := by
      rw [← h2]
      exact List.get?_append_right hnat
    have heq : idx.toNat - (TrimList.runTrace (TrimList.init α) ops).2.length =
        (idx - (TrimList.runTrace (TrimList.init α) ops).1.pop_count).toNat := by
      omega
    rw [hsplit, heq] at hv
    simp only [TrimList.getitemInt, pyIndex]
    rw [if_neg (by omega :
      ¬(idx - (TrimList.runTrace (TrimList.init α) ops).1.pop_count < 0))]
    rw [if_neg (by omega :
      ¬(idx - (TrimList.runTrace (TrimList.init α) ops).1.pop_count < 0))]
    rw [hv]

/-- Witness for C5 at concrete operation sequences. -/
theorem claimC5_witness :
    (ChunkList.run [ChunkList.Op.append (10 : Int), ChunkList.Op.append 20,
        ChunkList.Op.put 0 (some 99)]).get 0 = some 99 ∧
    (TrimList.run [TrimList.Op.append (7 : Int), TrimList.Op.append 8,
        TrimList.Op.trimBefore 1]).getitemInt 1 = Except.ok 8 :=
  ⟨claimC5_read_after_write.1
      [ChunkList.Op.append (10 : Int), ChunkList.Op.append 20,
        ChunkList.Op.put 0 (some 99)]
      (by decide) 0 (some 99) (by decide) (by decide) (by decide),
   claimC5_read_after_write.2
      [TrimList.Op.append (7 : Int), TrimList.Op.append 8,
        TrimList.Op.trimBefore 1]
      1 8 (by decide) (by decide) (by decide)⟩

/-- C6 counterexample: on the adapter, one append followed by
`trim_before(10)` yields `index_range() == (10, 1)`: `start` is `10`
although at most one element was (virtually) removed, and `start ≤ stop`
fails. -/
theorem claimC6_counterexample :
    (ChunkListAdapter.run [ChunkListAdapter.Op.append (5 : Int),
        ChunkListAdapter.Op.trimBefore 10]).indexrange = (10, 1) ∧
    ¬((ChunkListAdapter.run [ChunkListAdapter.Op.append (5 : Int),
        ChunkListAdapter.Op.trimBefore 10]).indexrange.1 ≤
      (ChunkListAdapter.run [ChunkListAdapter.Op.append (5 : Int),
        ChunkListAdapter.Op.trimBefore 10]).indexrange.2) := by
  refine ⟨rfl, by decide⟩

/-- C6 (amended): for `TrimList` the window invariant holds as claimed:
after any operation sequence `index_range().start` equals the number of
elements actually removed, `index_range().stop` equals the number of
elements appended, and `start ≤ stop`. For `ChunkListAdapter`, which
removes nothing physically, `stop` equals the number of appends, `start`
equals the running maximum of `0` and all `trim_before` arguments, and
`start ≤ stop` holds provided every `trim_before` argument is at most the
total number of appends. -/
theorem claimC6_window_amended {α : Type} :
    (∀ ops : List (TrimList.Op α),
      (TrimList.run ops).indexrange.1 =
        ((TrimList.runTrace (TrimList.init α) ops).2.length : Int) ∧
      (TrimList.run ops).indexrange.2 =
        ((TrimList.appendedVals ops).length : Int) ∧
      (TrimList.run ops).indexrange.1 ≤ (TrimList.run ops).indexrange.2) ∧
    (∀ ops : List (ChunkListAdapter.Op α),
      (ChunkListAdapter.run ops).indexrange.2 =
        ChunkListAdapter.appendCount ops ∧
      (ChunkListAdapter.run ops).indexrange.1 =
        ChunkListAdapter.maxTrim 0 ops ∧
      ((∀ idx, ChunkListAdapter.Op.trimBefore idx ∈ ops →
          idx ≤ ChunkListAdapter.appendCount ops) →
        (ChunkListAdapter.run ops).indexrange.1 ≤
          (ChunkListAdapter.run ops).indexrange.2)) := by
  constructor
  · intro ops
    have h1 := TrimList.run_pop_count ops
    have hlen := congrArg List.length (TrimList.run_data ops)
    simp only [List.length_append] at hlen
    simp only [TrimList.indexrange, TrimList.run] at h1 ⊢
    refine ⟨by omega, by omega, by omega⟩
  · intro ops
    have h1 := ChunkListAdapter.runFoldl_impl ops (ChunkListAdapter.init α)
    have h2 := ChunkListAdapter.runFoldl_trimmed ops (ChunkListAdapter.init α)
    have hz : (ChunkListAdapter.init α).impl.stop = 0 := rfl
    have ht : (ChunkListAdapter.init α).trimmed = 0 := rfl
    simp only [ChunkListAdapter.indexrange, ChunkListAdapter.run,
      ChunkList.keyrange] at h1 h2 ⊢
    rw [hz] at h1
    rw [ht] at h2
    refine ⟨by omega, h2, ?_⟩
    intro hb
    rw [h2, h1.1]
    have := ChunkListAdapter.maxTrim_le ops 0
      (ChunkListAdapter.appendCount ops)
      (ChunkListAdapter.appendCount_nonneg ops) hb
    omega

/-- Witness for C6 (amended) at a concrete adapter operation sequence. -/
theorem claimC6_witness :
    (ChunkListAdapter.run [ChunkListAdapter.Op.append (5 : Int),
        ChunkListAdapter.Op.trimBefore 1]).indexrange.1 ≤
      (ChunkListAdapter.run [ChunkListAdapter.Op.append (5 : Int),
        ChunkListAdapter.Op.trimBefore 1]).indexrange.2 := by
  refine (claimC6_window_amended.2 [ChunkListAdapter.Op.append (5 : Int),
    ChunkListAdapter.Op.trimBefore 1]).2.2 ?_
  intro idx h
  simp only [List.mem_cons, List.not_mem_nil, or_false] at h
  rcases h with h | h
  · exact absurd h (by simp)
  · have : idx = 1 := by
      injection h
    rw [this]
    decide

/-- C8 counterexample: on a `ChunkList` with window `[0, 4)`, the contiguous
step-1 selector `range(-1, 4)` does not have its lower bound clipped to the
window: the code first shifts the negative bound by `stop` (Python-style),
yielding only index `3`, whereas clipping `[-1, 4)` to the window would
yield all four indices. -/
theorem claimC8_counterexample :
    (ChunkList.run [ChunkList.Op.append (10 : Int), ChunkList.Op.append 20,
        ChunkList.Op.append 30, ChunkList.Op.append 40]).keyrange = (0, 4) ∧
    (ChunkList.run [ChunkList.Op.append (10 : Int), ChunkList.Op.append 20,
        ChunkList.Op.append 30, ChunkList.Op.append 40]).enumerate
      (ChunkList.Selector.rangeSel (-1) 4 1) = Except.ok [(3, some 40)] ∧
    (ChunkList.run [ChunkList.Op.append (10 : Int), ChunkList.Op.append 20,
        ChunkList.Op.append 30, ChunkList.Op.append 40]).enumerate
      (ChunkList.Selector.rangeSel (-1) 4 1) ≠
      Except.ok ((pyRange (max (-1) 0) (min 4 4) 1).map
        (fun i => (i, (ChunkList.run [ChunkList.Op.append (10 : Int),
          ChunkList.Op.append 20, ChunkList.Op.append 30,
          ChunkList.Op.append 40]).get i))) := by
  refine ⟨rfl, rfl, ?_⟩
  intro h
  exact absurd (Except.ok.inj ((rfl : (ChunkList.run
      [ChunkList.Op.append (10 : Int), ChunkList.Op.append 20,
        ChunkList.Op.append 30, ChunkList.Op.append 40]).enumerate
      (ChunkList.Selector.rangeSel (-1) 4 1) =
      Except.ok [(3, some 40)]).symm.trans h)) (by decide)

/-- C8 (amended): `ChunkList.enumerate` behaves as specified once the
contiguous-bound handling is stated Python-style: a negative bound of a
step-1 range is first shifted by `stop` before being clipped to
`[start, stop)`, and the pairs `(idx, get(idx))` are yielded in ascending
order (nothing when the clipped range is empty); with no selector (and a
nonnegative window) the full window is enumerated; an arbitrary iterable of
indices yields `(idx, get(idx))` for exactly the selected in-window indices
in selector order; a slice with integer bounds and step `None` behaves like
the corresponding step-1 range; and a non-slice, non-range, non-iterable
selector fails with the explicit "cannot interpret" error. -/
theorem claimC8_enumerate_amended {α : Type} :
    (∀ (s : ChunkList α) (a b : Int),
      ∃ L, s.enumerate (ChunkList.Selector.rangeSel a b 1) = Except.ok L ∧
        L.map Prod.fst =
          pyRange (max (if a < 0 then a + s.stop else a) s.start)
            (min (if b < 0 then b + s.stop else b) s.stop) 1 ∧
        ∀ p ∈ L, p.2 = s.get p.1) ∧
    (∀ s : ChunkList α, 0 ≤ s.start → 0 ≤ s.stop →
      ∃ L, s.enumerate ChunkList.Selector.noneSel = Except.ok L ∧
        L.map Prod.fst = pyRange s.start s.stop 1 ∧
        ∀ p ∈ L, p.2 = s.get p.1) ∧
    (∀ (s : ChunkList α) (l : List Int),
      ∃ L, s.enumerate (ChunkList.Selector.iterSel l) = Except.ok L ∧
        L.map Prod.fst =
          l.filter (fun i => decide (s.start ≤ i) && decide (i < s.stop)) ∧
        ∀ p ∈ L, p.2 = s.get p.1) ∧
    (∀ (s : ChunkList α) (a b : Int),
      s.enumerate (ChunkList.Selector.sliceSel (some a) (some b)
        Option.none) = s.enumerate (ChunkList.Selector.rangeSel a b 1)) ∧
    (∀ s : ChunkList α,
      s.enumerate ChunkList.Selector.otherSel = Except.error
        "ChunkList.enumerate() cannot interpret _slice as slice.") := by
  refine ⟨?_, ?_, ?_, ?_, ?_⟩
  · intro s a b
    simp only [ChunkList.enumerate, if_pos rfl]
    refine ⟨_, rfl, ?_, ?_⟩
    · simp only [ChunkList.enumContig]
      by_cases hlt : max (if a < 0 then a + s.stop else a) s.start <
          min (if b < 0 then b + s.stop else b) s.stop
      · rw [if_pos hlt]
        exact map_fst_pair _ _
      · rw [if_neg hlt]
        exact (pyRange_one_nil (by omega)).symm
    · intro p hp
      simp only [ChunkList.enumContig] at hp
      by_cases hlt : max (if a < 0 then a + s.stop else a) s.start <
          min (if b < 0 then b + s.stop else b) s.stop
      · rw [if_pos hlt] at hp
        rcases List.mem_map.1 hp with ⟨i, _, hi⟩
        rw [← hi]
      · rw [if_neg hlt] at hp
        exact absurd hp (List.not_mem_nil p)
  · intro s h0 h1
    simp only [ChunkList.enumerate]
    refine ⟨_, rfl, ?_, ?_⟩
    · simp only [ChunkList.enumContig, if_neg (not_lt.2 h0),
        if_neg (not_lt.2 h1), max_self, min_self]
      by_cases hlt : s.start < s.stop
      · rw [if_pos hlt]
        exact map_fst_pair _ _
      · rw [if_neg hlt]
        exact (pyRange_one_nil (by omega)).symm
    · intro p hp
      simp only [ChunkList.enumContig, if_neg (not_lt.2 h0),
        if_neg (not_lt.2 h1), max_self, min_self] at hp
      by_cases hlt : s.start < s.stop
      · rw [if_pos hlt] at hp
        rcases List.mem_map.1 hp with ⟨i, _, hi⟩
        rw [← hi]
      · rw [if_neg hlt] at hp
        exact absurd hp (List.not_mem_nil p)
  · intro s l
    refine ⟨_, rfl, ?_, ?_⟩
    · simp only [ChunkList.enumIter]
      exact map_fst_pair _ _
    · intro p hp
      simp only [ChunkList.enumIter] at hp
      rcases List.mem_map.1 hp with ⟨i, _, hi⟩
      rw [← hi]
  · intro s a b
    simp [ChunkList.enumerate]
  · intro s
    rfl

/-- Witness for C8 (amended) at a concrete state. -/
theorem claimC8_witness :
    ∃ L, (ChunkList.run [ChunkList.Op.append (10 : Int),
        ChunkList.Op.append 20]).enumerate ChunkList.Selector.noneSel =
      Except.ok L ∧
      L.map Prod.fst =
        pyRange (ChunkList.run [ChunkList.Op.append (10 : Int),
          ChunkList.Op.append 20]).start
          (ChunkList.run [ChunkList.Op.append (10 : Int),
            ChunkList.Op.append 20]).stop 1 ∧
      ∀ p ∈ L, p.2 = (ChunkList.run [ChunkList.Op.append (10 : Int),
        ChunkList.Op.append 20]).get p.1 :=
  claimC8_enumerate_amended.2.1
    (ChunkList.run [ChunkList.Op.append (10 : Int), ChunkList.Op.append 20])
    (by decide) (by decide)

end PyDeque
